import Mathlib

/-!
Verification of the core logic of `Schedule_Checker.py` (Class-Schedular).

The program keeps an in-memory list of class entries, each with a name, a
start time, an end time (both parsed from "HH:MM" 24-hour strings into
numeric hours since midnight) and a list of weekdays.  `add_class` validates
a submission and appends it unless it conflicts with a stored entry;
`select_classes` runs a per-day greedy interval selection and sorts the
result by (day index, start).

Times are embedded as exact rationals.  Every time value the program ever
compares is of the form h + m/60 with 0 ≤ h ≤ 23, 0 ≤ m ≤ 59; distinct such
values differ by at least 1/60, far above double-precision rounding error,
so the rational embedding and the double-precision code order and compare
identically.  The one place where double rounding is observable is the
display formatting (int() truncation of (value - hour) * 60); for that we
additionally build an explicit model of IEEE binary64 rounding (`fl`) and
evaluate the actual float pipeline.
-/

namespace SchedChk

/-- Weekday: one of the seven fixed symbolic values, Mon..Sun. -/
inductive Day where
  | mon | tue | wed | thu | fri | sat | sun
deriving DecidableEq, Repr

/-- The fixed ordered list DAYS = ["Mon", ..., "Sun"] from the source. -/
def DAYS : List Day := [.mon, .tue, .wed, .thu, .fri, .sat, .sun]

/-- DAYS.index(d) from the source (position of a weekday in the fixed list). -/
def dayIdx (d : Day) : ℕ := DAYS.indexOf d

/-- A stored class entry: the dict {name, start, end, days} of the source.
The key end is spelled endTime because end is a Lean keyword. -/
structure ClassEntry where
  name : String
  start : ℚ
  endTime : ℚ
  days : List Day
deriving DecidableEq, Repr

/-- An ASCII digit 0-9.  This is what the literal character classes of the
regex ([01], 2, [0-3], [0-5]) range over, and what the canonical HH:MM
strings of the spec are written with. -/
def isAsciiDigit (c : Char) : Bool := decide ('0' ≤ c) && decide (c ≤ '9')

/-- The zero code point of every block of Unicode decimal digits (category
Nd, Unicode 14): each block is exactly the ten code points z..z+9 with
decimal values 0..9.  Python str-pattern \d matches precisely these
characters, and int() converts them by their decimal value. -/
def ndZeros : List ℕ :=
  [48, 1632, 1776, 1984, 2406, 2534, 2662, 2790, 2918, 3046, 3174, 3302,
   3430, 3558, 3664, 3792, 3872, 4160, 4240, 6112, 6160, 6470, 6608, 6784,
   6800, 6992, 7088, 7232, 7248, 42528, 43216, 43264, 43472, 43504, 43600,
   44016, 65296, 66720, 68912, 69734, 69872, 69942, 70096, 70384, 70736,
   70864, 71248, 71360, 71472, 71904, 72016, 72784, 73040, 73120, 92768,
   92864, 93008, 120782, 120792, 120802, 120812, 120822, 123200, 123632,
   125264, 130032]

/-- Character class \d of the regex under Python semantics: any Unicode
decimal digit. -/
def isDigit (c : Char) : Bool :=
  ndZeros.any (fun z => decide (z ≤ c.toNat) && decide (c.toNat ≤ z + 9))

/-- The decimal value int() assigns to a Unicode decimal digit (offset into
its block); 0 on non-digits, which the guards never let through. -/
def digitVal (c : Char) : ℕ :=
  match ndZeros.find? (fun z => decide (z ≤ c.toNat) && decide (c.toNat ≤ z + 9)) with
  | some z => c.toNat - z
  | none => 0

/-- The minute group ([0-5]\d) of the regex: first char ASCII 0-5 (a literal
range of code points), second any Unicode decimal digit. -/
def minuteOk (m1 m2 : Char) : Bool :=
  (decide ('0' ≤ m1) && decide (m1 ≤ '5')) && isDigit m2

/-- The two-character hour alternatives of the regex ([01]?\d | 2[0-3]) when
both optional characters are present: a literal ASCII 0 or 1 followed by any
Unicode decimal digit, or a literal ASCII 2 followed by ASCII 0-3. -/
def hourOk2 (h1 h2 : Char) : Bool :=
  ((decide (h1 = '0') || decide (h1 = '1')) && isDigit h2) ||
    (decide (h1 = '2') && (decide ('0' ≤ h2) && decide (h2 ≤ '3')))

/-- Match of the regex ([01]?\d|2[0-3]):([0-5]\d) against an entire
character list, returning the numeric (hour, minute) groups.  A match has
exactly the shapes d:mm or dd:mm, so the match function dispatches on the
length and the colon position; the guards are the character classes of the
regex with its backtracking resolved (a lone hour digit comes from [01]?\d
with the optional character empty). -/
def timeMatchCore : List Char → Option (ℕ × ℕ)
  | [h1, c, m1, m2] =>
      if c = ':' ∧ (isDigit h1 && minuteOk m1 m2) = true then
        some (digitVal h1, 10 * digitVal m1 + digitVal m2)
      else none
  | [h1, h2, c, m1, m2] =>
      if c = ':' ∧ (hourOk2 h1 h2 && minuteOk m1 m2) = true then
        some (10 * digitVal h1 + digitVal h2, 10 * digitVal m1 + digitVal m2)
      else none
  | _ => none

/-- Drop a single final newline, if present. -/
def dropTrailingNewline : List Char → List Char
  | [] => []
  | [c] => if c = '\n' then [] else [c]
  | c :: d :: rest => c :: dropTrailingNewline (d :: rest)

/-- The anchored match re.match with a trailing dollar, as Python runs it:
outside MULTILINE mode the dollar also matches just before a string-final
newline, so the pattern accepts the body alone or the body followed by one
final newline.  Since none of the character classes of the body can match a
newline, this equals matching the core pattern after dropping a single
trailing newline. -/
def timeMatch (l : List Char) : Option (ℕ × ℕ) :=
  timeMatchCore (dropTrailingNewline l)

/-- parse_time from the source: match the HH:MM regex and return
hour + minute / 60; None models the raised ValueError (FormatError). -/
def parse_time (s : String) : Option ℚ :=
  match timeMatch s.toList with
  | some hm => some ((hm.1 : ℚ) + (hm.2 : ℚ) / 60)
  | none => none

/-- times_overlap from the source: not (end1 <= start2 or end2 <= start1). -/
def times_overlap (start1 end1 start2 end2 : ℚ) : Bool :=
  !(decide (end1 ≤ start2) || decide (end2 ≤ start1))

/-- Two-digit zero padding, the f-string format {n:02d} for 0 ≤ n < 100. -/
def pad2 (n : ℕ) : String :=
  if n < 10 then "0" ++ toString n else toString n

/-- Python int() on a number: truncation toward zero. -/
def pyInt (q : ℚ) : ℤ := if q < 0 then -⌊-q⌋ else ⌊q⌋

/-- The display formatting of the source (update_class_list and the result
rendering of select_classes): hour = int(value), minute =
int((value - hour) * 60), both zero-padded to two digits.  This is the
exact-arithmetic reading; the float-faithful version is formatFloat below. -/
def format_time (q : ℚ) : String :=
  let hr := pyInt q
  let mn := pyInt ((q - (hr : ℚ)) * 60)
  pad2 hr.toNat ++ ":" ++ pad2 mn.toNat

/-!
A model of the IEEE binary64 ("double") arithmetic that the Python source
actually performs, needed only where rounding is observable: the display
formatting.  A finite double is a dyadic rational; each arithmetic operation
rounds the exact rational result to 53 significant bits, to nearest, ties to
even.  Subnormals and overflow are irrelevant in the range the program uses
(all values lie between 1/64 and 86400), so rounding at the binade of the
value is the complete semantics.  The functions below use only Rat.divInt,
integer powers and rational comparisons, so they reduce inside decide.
-/

/-- Floor of log base 2 with explicit fuel, structurally recursive so the
kernel can evaluate it; 0 below 2. -/
def log2fuel : ℕ → ℕ → ℕ
  | 0, _ => 0
  | fuel + 1, n => if 2 ≤ n then log2fuel fuel (n / 2) + 1 else 0

/-- Floor of log base 2 (0 for inputs below 2). -/
def nlog2 (n : ℕ) : ℕ := log2fuel n n

/-- Binade exponent: for q > 0, the unique e with 2 ^ e <= q < 2 ^ (e + 1). -/
def ilog2 (q : ℚ) : ℤ :=
  if 1 ≤ q then (nlog2 (⌊q⌋.toNat) : ℤ)
  else
    let r := Rat.divInt (q.den : ℤ) q.num
    let L := nlog2 (⌊r⌋.toNat)
    if r.den = 1 ∧ r.num = 2 ^ L then -(L : ℤ) else -(L : ℤ) - 1

/-- Round a rational to the nearest integer, ties to even. -/
def roundHalfEven (q : ℚ) : ℤ :=
  let f := ⌊q⌋
  let frac := q - (f : ℚ)
  if frac < Rat.divInt 1 2 then f
  else if Rat.divInt 1 2 < frac then f + 1
  else if f % 2 = 0 then f else f + 1

/-- Binary64 rounding of a positive rational: scale into the binade so that
the significand is an integer in [2 ^ 52, 2 ^ 53], round to nearest (ties to
even), scale back.  Returns 0 for non-positive input. -/
def flPos (q : ℚ) : ℚ :=
  if q ≤ 0 then 0
  else
    let e := ilog2 q
    if e ≤ 52 then
      let s : ℤ := 2 ^ (52 - e).toNat
      Rat.divInt (roundHalfEven (Rat.divInt (q.num * s) (q.den : ℤ))) s
    else
      let s : ℤ := 2 ^ (e - 52).toNat
      Rat.divInt (roundHalfEven (Rat.divInt q.num ((q.den : ℤ) * s)) * s) 1

/-- Binary64 rounding of an exact rational to the nearest double value. -/
def fl (q : ℚ) : ℚ := if q < 0 then -flPos (-q) else flPos q

/-- parse_time under actual double semantics: hour + minute / 60 with the
division and the addition each correctly rounded (integer operands convert
to doubles exactly in this range). -/
def parse_time_float (s : String) : Option ℚ :=
  match timeMatch s.toList with
  | some hm => some (fl ((hm.1 : ℚ) + fl (Rat.divInt (hm.2 : ℤ) 60)))
  | none => none

/-- The display formatting of the source under actual double semantics:
hour = int(value); minute = int((value - hour) * 60) where the subtraction
and the multiplication round, and int() truncates toward zero. -/
def format_time_float (q : ℚ) : String :=
  let hr := pyInt q
  let mn := pyInt (fl (fl (q - (hr : ℚ)) * 60))
  pad2 hr.toNat ++ ":" ++ pad2 mn.toNat

/-- The formatting the SPEC prescribes (minute = round((value - hour) * 60),
Python round, ties to even), under the same double semantics.  Used to show
the spec intent round-trips where the code truncation does not. -/
def format_time_float_round (q : ℚ) : String :=
  let hr := pyInt q
  let mn := roundHalfEven (fl (fl (q - (hr : ℚ)) * 60))
  pad2 hr.toNat ++ ":" ++ pad2 mn.toNat

/-- The error outcomes of add_class: the three messagebox.showerror cases,
parse failure, and the conflict warning carrying the name of the first
conflicting stored entry and the shared days. -/
inductive AddError where
  | emptyName
  | badTime
  | startNotBeforeEnd
  | noDays
  | conflict (conflictingName : String) (sharedDays : List Day)
deriving DecidableEq, Repr

/-- set(days).intersection(existing.days) from the source, kept as the
sublist of the candidate days that also occur in the stored entry. -/
def sharedDaysOf (days : List Day) (ex : ClassEntry) : List Day :=
  days.filter (fun d => decide (d ∈ ex.days))

/-- The conflict scan of add_class: walk the stored entries in insertion
order and return the first whose days intersect the candidate days and whose
interval overlaps the candidate interval. -/
def findConflict (days : List Day) (start endTime : ℚ) :
    List ClassEntry → Option ClassEntry
  | [] => none
  | ex :: rest =>
      if !(sharedDaysOf days ex).isEmpty &&
          times_overlap start endTime ex.start ex.endTime then
        some ex
      else findConflict days start endTime rest

/-- add_class from the source, over an explicit state (the stored entry
list).  The day checkboxes are a selection function; days is the ordered
sublist of DAYS it selects.  Returns the state after the call together with
the error, if any; every error path returns before the append. -/
def add_class (classes : List ClassEntry) (nameText startText endText : String)
    (sel : Day → Bool) : List ClassEntry × Option AddError :=
  let name := nameText.trim
  if name = "" then (classes, some .emptyName)
  else
    match parse_time startText.trim, parse_time endText.trim with
    | none, _ => (classes, some .badTime)
    | some _, none => (classes, some .badTime)
    | some start, some endTime =>
      if endTime ≤ start then (classes, some .startNotBeforeEnd)
      else
        let days := DAYS.filter sel
        if days = [] then (classes, some .noDays)
        else
          match findConflict days start endTime classes with
          | some ex => (classes, some (.conflict ex.name (sharedDaysOf days ex)))
          | none => (classes ++ [⟨name, start, endTime, days⟩], none)

/-- The stable sort day_classes.sort(key = end) of the source.  Python
list.sort is stable; List.mergeSort is the stable sort of the library. -/
def sortByEnd (l : List ClassEntry) : List ClassEntry :=
  l.mergeSort (fun a b => decide (a.endTime ≤ b.endTime))

/-- The sort key comparison of the final selected.sort of the source:
lexicographic on (DAYS.index day, start). -/
def keyLe (p q : Day × ClassEntry) : Bool :=
  decide (dayIdx p.1 < dayIdx q.1) ||
    (decide (dayIdx p.1 = dayIdx q.1) && decide (p.2.start ≤ q.2.start))

/-- The in-scope day filter of select_classes: the entries whose days
contain the given weekday, in insertion order (a fresh list, as the list
comprehension in the source builds one). -/
def filterDay (d : Day) (classes : List ClassEntry) : List ClassEntry :=
  classes.filter (fun c => decide (d ∈ c.days))

/-- The body of the inner greedy loop of select_classes: state is the shared
selected list plus last_end; a candidate is accepted (appended as a
(day, entry) pair, updating last_end to its end) exactly when
start >= last_end. -/
def greedyStep (d : Day) (st : List (Day × ClassEntry) × ℚ) (c : ClassEntry) :
    List (Day × ClassEntry) × ℚ :=
  if st.2 ≤ c.start then (st.1 ++ [(d, c)], c.endTime) else st

/-- The body of the outer per-day loop of select_classes: read the current
entry list, filter it to the day, sort the fresh filtered list by end time,
and run the greedy scan with last_end starting at the sentinel -1.  The
entry list component is carried through untouched, as in the source, where
only the local day_classes and the selected list are written. -/
def dayStep (acc : List ClassEntry × List (Day × ClassEntry)) (d : Day) :
    List ClassEntry × List (Day × ClassEntry) :=
  let day_classes := sortByEnd (filterDay d acc.1)
  (acc.1, (day_classes.foldl (greedyStep d) (acc.2, -1)).1)

/-- The body of select_classes up to the final sort, threading the state
explicitly over the days in DAYS order. -/
def selectLoop (classes : List ClassEntry) :
    List ClassEntry × List (Day × ClassEntry) :=
  DAYS.foldl dayStep (classes, [])

/-- select_classes from the source: the per-day greedy pass followed by the
final selected.sort(key = (DAYS.index day, start)). -/
def select_classes (classes : List ClassEntry) : List (Day × ClassEntry) :=
  ((selectLoop classes).2).mergeSort keyLe

/-!
Spec-side definitions.  Each is written from the wording of the
specification, to be compared with the definitions above, which are
translated from the source.
-/

/-- All characters are ASCII digits — the digits of a canonical HH:MM
string in the sense of the spec. -/
def isDigits (l : List Char) : Bool := l.all isAsciiDigit

/-- Numeric value of a digit string. -/
def digitsVal (l : List Char) : ℕ := l.foldl (fun a c => 10 * a + digitVal c) 0

/-- Spec-side description of a conforming time string with hour value h and
minute value m: 24-hour HH:MM, hour 0-23 written with one or two digits,
minute 00-59 with exactly two digits, separated by a colon. -/
def specTime (s : String) (h m : ℕ) : Prop :=
  ∃ hh mm : List Char, s.toList = hh ++ ':' :: mm ∧
    (hh.length = 1 ∨ hh.length = 2) ∧ isDigits hh = true ∧
    mm.length = 2 ∧ isDigits mm = true ∧
    digitsVal hh = h ∧ digitsVal mm = m ∧ h ≤ 23 ∧ m ≤ 59

/-- Spec-side: the string conforms to the 24-hour HH:MM format. -/
def specConforms (s : String) : Prop := ∃ h m, specTime s h m

/-- Spec-side greedy scan (spec step c): walk the candidates keeping
lastEnd, accept a candidate exactly when its start is at least lastEnd, and
update lastEnd to the accepted end. -/
def specGreedyScan (lastEnd : ℚ) : List ClassEntry → List ClassEntry
  | [] => []
  | c :: rest =>
      if lastEnd ≤ c.start then c :: specGreedyScan c.endTime rest
      else specGreedyScan lastEnd rest

/-- Half-open interval compatibility (the negation of times_overlap): the
two intervals do not overlap, touching endpoints allowed. -/
def compat (a b : ClassEntry) : Prop :=
  a.endTime ≤ b.start ∨ b.endTime ≤ a.start

/-!
Character arithmetic lemmas: the regex character classes expressed through
code points, so that omega can work on the numeric side.
-/

theorem char_le_iff (a b : Char) : a ≤ b ↔ a.toNat ≤ b.toNat := by
  simp [Char.le_def, UInt32.le_def, Char.toNat, UInt32.toNat, BitVec.le_def]

theorem char_eq_iff (a b : Char) : a = b ↔ a.toNat = b.toNat := by
  constructor
  · intro h; rw [h]
  · intro h
    have h1 := Char.ofNat_toNat a
    have h2 := Char.ofNat_toNat b
    rw [← h1, ← h2, h]

theorem isAsciiDigit_iff (c : Char) :
    isAsciiDigit c = true ↔ 48 ≤ c.toNat ∧ c.toNat ≤ 57 := by
  simp [isAsciiDigit, char_le_iff]

theorem isDigit_iff_exists (c : Char) :
    isDigit c = true ↔ ∃ z ∈ ndZeros, z ≤ c.toNat ∧ c.toNat ≤ z + 9 := by
  simp [isDigit, List.any_eq_true]

/-- Every Unicode decimal digit block starts at code point 48 or above. -/
theorem ndZeros_ge_48 : ∀ z ∈ ndZeros, 48 ≤ z := by decide

theorem isDigit_ge_48 {c : Char} (h : isDigit c = true) : 48 ≤ c.toNat := by
  obtain ⟨z, hz, hle, _⟩ := (isDigit_iff_exists c).mp h
  have := ndZeros_ge_48 z hz
  omega

theorem digitVal_le_nine (c : Char) : digitVal c ≤ 9 := by
  unfold digitVal
  rcases hf : ndZeros.find?
      (fun z => decide (z ≤ c.toNat) && decide (c.toNat ≤ z + 9)) with _ | z
  · simp
  · have hp := List.find?_some hf
    simp at hp
    simp
    omega

/-- An ASCII digit is a Unicode decimal digit (the first block is 48..57). -/
theorem ascii_isDigit {c : Char} (h : isAsciiDigit c = true) :
    isDigit c = true := by
  rw [isAsciiDigit_iff] at h
  rw [isDigit_iff_exists]
  exact ⟨48, by decide, h.1, by omega⟩

/-- On the ASCII block the decimal value is the code point minus 48, because
48 heads the block table. -/
theorem ascii_digitVal {c : Char} (h1 : 48 ≤ c.toNat) (h2 : c.toNat ≤ 57) :
    digitVal c = c.toNat - 48 := by
  unfold digitVal ndZeros
  rw [List.find?_cons_of_pos]
  simp
  omega

theorem minuteOk_iff (a b : Char) :
    minuteOk a b = true ↔
      (48 ≤ a.toNat ∧ a.toNat ≤ 53) ∧ isDigit b = true := by
  simp [minuteOk, char_le_iff]

theorem hourOk2_iff (a b : Char) :
    hourOk2 a b = true ↔
      ((a.toNat = 48 ∨ a.toNat = 49) ∧ isDigit b = true) ∨
        (a.toNat = 50 ∧ 48 ≤ b.toNat ∧ b.toNat ≤ 51) := by
  simp [hourOk2, char_le_iff, char_eq_iff]

theorem digitsVal_one (a : Char) : digitsVal [a] = digitVal a := by
  simp [digitsVal, digitVal]

theorem digitsVal_two (a b : Char) :
    digitsVal [a, b] = 10 * digitVal a + digitVal b := by
  simp [digitsVal]

/-- A successful core match happens on exactly the two regex shapes, with
the guards holding and the value decoded from the digit values. -/
theorem timeMatchCore_some_shape {l : List Char} {h m : ℕ}
    (hm : timeMatchCore l = some (h, m)) :
    (∃ h1 m1 m2, l = [h1, ':', m1, m2] ∧ isDigit h1 = true ∧
      minuteOk m1 m2 = true ∧ digitVal h1 = h ∧
      10 * digitVal m1 + digitVal m2 = m) ∨
    (∃ h1 h2 m1 m2, l = [h1, h2, ':', m1, m2] ∧ hourOk2 h1 h2 = true ∧
      minuteOk m1 m2 = true ∧ 10 * digitVal h1 + digitVal h2 = h ∧
      10 * digitVal m1 + digitVal m2 = m) := by
  match l with
  | [] => simp [timeMatchCore] at hm
  | [a] => simp [timeMatchCore] at hm
  | [a, b] => simp [timeMatchCore] at hm
  | [a, b, c] => simp [timeMatchCore] at hm
  | [a, b, c, d] =>
    rw [timeMatchCore] at hm
    split at hm
    case isTrue hg =>
      obtain ⟨hb, hguard⟩ := hg
      subst hb
      rw [Bool.and_eq_true] at hguard
      injection hm with hm
      injection hm with hh hmm
      exact Or.inl ⟨a, c, d, rfl, hguard.1, hguard.2, hh, hmm⟩
    case isFalse => exact absurd hm (by simp)
  | [a, b, c, d, e] =>
    rw [timeMatchCore] at hm
    split at hm
    case isTrue hg =>
      obtain ⟨hc, hguard⟩ := hg
      subst hc
      rw [Bool.and_eq_true] at hguard
      injection hm with hm
      injection hm with hh hmm
      exact Or.inr ⟨a, b, d, e, rfl, hguard.1, hguard.2, hh, hmm⟩
    case isFalse => exact absurd hm (by simp)
  | a :: b :: c :: d :: e :: f :: rest => simp [timeMatchCore] at hm

/-- The decoded hour is at most 23 and the decoded minute at most 59, on
every successful core match. -/
theorem timeMatchCore_bounds {l : List Char} {h m : ℕ}
    (hm : timeMatchCore l = some (h, m)) : h ≤ 23 ∧ m ≤ 59 := by
  rcases timeMatchCore_some_shape hm with
    ⟨h1, m1, m2, _, _, hmn, hv, hvm⟩ |
      ⟨h1, h2, m1, m2, _, hhr, hmn, hv, hvm⟩
  · rw [minuteOk_iff] at hmn
    have d1 := digitVal_le_nine h1
    have d2 := digitVal_le_nine m2
    have dm1 : digitVal m1 ≤ 5 := by
      rw [ascii_digitVal hmn.1.1 (by omega)]
      omega
    omega
  · rw [minuteOk_iff] at hmn
    rw [hourOk2_iff] at hhr
    have d2 := digitVal_le_nine h2
    have d3 := digitVal_le_nine m2
    have dm1 : digitVal m1 ≤ 5 := by
      rw [ascii_digitVal hmn.1.1 (by omega)]
      omega
    rcases hhr with ⟨ha, _⟩ | ⟨ha, hb⟩
    · have hv1 : digitVal h1 ≤ 1 := by
        rw [ascii_digitVal (by omega) (by omega)]
        omega
      omega
    · have hv1 : digitVal h1 = 2 := by
        rw [ascii_digitVal (by omega) (by omega), ha]
      have hv2 : digitVal h2 ≤ 3 := by
        rw [ascii_digitVal (by omega) (by omega)]
        omega
      omega

/-- Either nothing is dropped, or exactly one final newline was. -/
theorem dtn_shape : ∀ l : List Char,
    l = dropTrailingNewline l ∨ l = dropTrailingNewline l ++ ['\n']
  | [] => Or.inl rfl
  | [c] => by
    by_cases hc : c = '\n'
    · subst hc
      right
      simp [dropTrailingNewline]
    · left
      simp [dropTrailingNewline, hc]
  | c :: d :: rest => by
    rcases dtn_shape (d :: rest) with ih | ih
    · left
      rw [dropTrailingNewline, ← ih]
    · right
      rw [dropTrailingNewline, List.cons_append, ← ih]

/-- A conforming decomposition in the sense of the spec is matched by the
regex, with the same hour and minute. -/
theorem spec_timeMatch_some {l : List Char} {h m : ℕ}
    (hs : ∃ hh mm, l = hh ++ ':' :: mm ∧ (hh.length = 1 ∨ hh.length = 2) ∧
      isDigits hh = true ∧ mm.length = 2 ∧ isDigits mm = true ∧
      digitsVal hh = h ∧ digitsVal mm = m ∧ h ≤ 23 ∧ m ≤ 59) :
    timeMatch l = some (h, m) := by
  obtain ⟨hh, mm, hl, hlen, hdh, hlm, hdm, hvh, hvm, hhle, hmle⟩ := hs
  obtain ⟨c, d, hcd⟩ := List.length_eq_two.mp hlm
  subst hcd
  simp [isDigits, isAsciiDigit_iff] at hdm
  have hceq : digitsVal [c, d] = m := hvm
  rw [digitsVal_two, ascii_digitVal hdm.1.1 hdm.1.2,
    ascii_digitVal hdm.2.1 hdm.2.2] at hceq
  have hdne : ¬ d = '\n' := by
    rw [char_eq_iff]
    have : ('\n' : Char).toNat = 10 := by decide
    omega
  have hmn : minuteOk c d = true := by
    rw [minuteOk_iff]
    refine ⟨⟨hdm.1.1, by omega⟩, ascii_isDigit ((isAsciiDigit_iff d).mpr hdm.2)⟩
  rcases hlen with h1 | h2
  · obtain ⟨a, ha⟩ := List.length_eq_one.mp h1
    subst ha
    subst hl
    simp [isDigits] at hdh
    rw [digitsVal_one] at hvh
    simp only [List.cons_append, List.nil_append]
    rw [timeMatch]
    have hstrip : dropTrailingNewline [a, ':', c, d] = [a, ':', c, d] := by
      simp [dropTrailingNewline, hdne]
    rw [hstrip, timeMatchCore,
      if_pos ⟨rfl, by simp [ascii_isDigit hdh, hmn]⟩]
    refine congrArg some ?_
    rw [Prod.mk.injEq]
    refine ⟨hvh, ?_⟩
    rw [ascii_digitVal hdm.1.1 hdm.1.2, ascii_digitVal hdm.2.1 hdm.2.2]
    exact hceq
  · obtain ⟨a, b, hab⟩ := List.length_eq_two.mp h2
    subst hab
    subst hl
    simp [isDigits, isAsciiDigit_iff] at hdh
    rw [digitsVal_two, ascii_digitVal hdh.1.1 hdh.1.2,
      ascii_digitVal hdh.2.1 hdh.2.2] at hvh
    have hhr : hourOk2 a b = true := by
      rw [hourOk2_iff]
      by_cases ha50 : a.toNat = 50
      · exact Or.inr ⟨ha50, hdh.2.1, by omega⟩
      · exact Or.inl ⟨by omega,
          ascii_isDigit ((isAsciiDigit_iff b).mpr hdh.2)⟩
    simp only [List.cons_append, List.nil_append]
    rw [timeMatch]
    have hstrip : dropTrailingNewline [a, b, ':', c, d] = [a, b, ':', c, d] := by
      simp [dropTrailingNewline, hdne]
    rw [hstrip, timeMatchCore, if_pos ⟨rfl, by simp [hhr, hmn]⟩]
    refine congrArg some ?_
    rw [Prod.mk.injEq]
    constructor
    · rw [ascii_digitVal hdh.1.1 hdh.1.2, ascii_digitVal hdh.2.1 hdh.2.2]
      exact hvh
    · rw [ascii_digitVal hdm.1.1 hdm.1.2, ascii_digitVal hdm.2.1 hdm.2.2]
      exact hceq

/-- Bridge: a conforming string (spec side) is matched by the regex. -/
theorem specTime_timeMatch {s : String} {h m : ℕ} (hs : specTime s h m) :
    timeMatch s.toList = some (h, m) :=
  spec_timeMatch_some hs

/-- Spec-side description of the strings the program actually accepts, with
hour value h and minute value m: an optional single final newline (the
anchored dollar of re.match also matches just before one), then hour, colon,
minute, where every position the regex covers with \d admits any Unicode
decimal digit (contributing its decimal value, as int() does) while the
literal character classes stay ASCII: the hour is one digit, or an ASCII 0
or 1 followed by a digit, or an ASCII 2 followed by ASCII 0-3; the minute is
an ASCII 0-5 followed by a digit. -/
def pyTime (s : String) (h m : ℕ) : Prop :=
  ∃ hh m1 m2 tail, s.toList = hh ++ ':' :: m1 :: m2 :: tail ∧
    (tail = [] ∨ tail = ['\n']) ∧
    '0' ≤ m1 ∧ m1 ≤ '5' ∧ isDigit m2 = true ∧
    ((∃ a, hh = [a] ∧ isDigit a = true) ∨
      (∃ a b, hh = [a, b] ∧
        (((a = '0' ∨ a = '1') ∧ isDigit b = true) ∨
          (a = '2' ∧ '0' ≤ b ∧ b ≤ '3')))) ∧
    digitsVal hh = h ∧ 10 * digitVal m1 + digitVal m2 = m

/-- A successful match yields an accepted decomposition in the amended
(Python-semantics) sense. -/
theorem timeMatch_some_py {s : String} {h m : ℕ}
    (hm : timeMatch s.toList = some (h, m)) : pyTime s h m := by
  unfold timeMatch at hm
  have hshape := timeMatchCore_some_shape hm
  have hdtn := dtn_shape s.toList
  have h48 : ('0' : Char).toNat = 48 := by decide
  have h53 : ('5' : Char).toNat = 53 := by decide
  have h49 : ('1' : Char).toNat = 49 := by decide
  have h50 : ('2' : Char).toNat = 50 := by decide
  have h51 : ('3' : Char).toNat = 51 := by decide
  rcases hshape with
    ⟨h1, m1, m2, hl, hd, hmn, hv, hvm⟩ |
      ⟨h1, h2, m1, m2, hl, hhr, hmn, hv, hvm⟩ <;>
    rw [minuteOk_iff] at hmn <;>
    rcases hdtn with heq | heq
  · exact ⟨[h1], m1, m2, [], by rw [heq, hl]; rfl, Or.inl rfl,
      by rw [char_le_iff, h48]; omega, by rw [char_le_iff, h53]; omega,
      hmn.2, Or.inl ⟨h1, rfl, hd⟩, by rw [digitsVal_one]; exact hv, hvm⟩
  · exact ⟨[h1], m1, m2, ['\n'], by rw [heq, hl]; rfl, Or.inr rfl,
      by rw [char_le_iff, h48]; omega, by rw [char_le_iff, h53]; omega,
      hmn.2, Or.inl ⟨h1, rfl, hd⟩, by rw [digitsVal_one]; exact hv, hvm⟩
  · rw [hourOk2_iff] at hhr
    refine ⟨[h1, h2], m1, m2, [], by rw [heq, hl]; rfl, Or.inl rfl,
      by rw [char_le_iff, h48]; omega, by rw [char_le_iff, h53]; omega,
      hmn.2, Or.inr ⟨h1, h2, rfl, ?_⟩, by rw [digitsVal_two]; exact hv, hvm⟩
    rcases hhr with ⟨ha, hb⟩ | ⟨ha, hb⟩
    · refine Or.inl ⟨?_, hb⟩
      rw [char_eq_iff, char_eq_iff, h48, h49]
      omega
    · refine Or.inr ⟨by rw [char_eq_iff, h50]; omega,
        by rw [char_le_iff, h48]; omega, by rw [char_le_iff, h51]; omega⟩
  · rw [hourOk2_iff] at hhr
    refine ⟨[h1, h2], m1, m2, ['\n'], by rw [heq, hl]; rfl, Or.inr rfl,
      by rw [char_le_iff, h48]; omega, by rw [char_le_iff, h53]; omega,
      hmn.2, Or.inr ⟨h1, h2, rfl, ?_⟩, by rw [digitsVal_two]; exact hv, hvm⟩
    rcases hhr with ⟨ha, hb⟩ | ⟨ha, hb⟩
    · refine Or.inl ⟨?_, hb⟩
      rw [char_eq_iff, char_eq_iff, h48, h49]
      omega
    · refine Or.inr ⟨by rw [char_eq_iff, h50]; omega,
        by rw [char_le_iff, h48]; omega, by rw [char_le_iff, h51]; omega⟩

/-- An accepted decomposition in the amended sense is matched by the
regex. -/
theorem py_timeMatch_some {s : String} {h m : ℕ} (hp : pyTime s h m) :
    timeMatch s.toList = some (h, m) := by
  obtain ⟨hh, m1, m2, tail, hl, htail, hm1l, hm1u, hm2, hhour, hvh, hvm⟩ := hp
  have h48 : ('0' : Char).toNat = 48 := by decide
  have h53 : ('5' : Char).toNat = 53 := by decide
  have h49 : ('1' : Char).toNat = 49 := by decide
  have h50 : ('2' : Char).toNat = 50 := by decide
  have h51 : ('3' : Char).toNat = 51 := by decide
  have hm2ne : ¬ m2 = '\n' := by
    intro hc
    rw [hc] at hm2
    exact absurd hm2 (by decide)
  have hmn : minuteOk m1 m2 = true := by
    rw [minuteOk_iff]
    rw [char_le_iff, h48] at hm1l
    rw [char_le_iff, h53] at hm1u
    exact ⟨⟨hm1l, hm1u⟩, hm2⟩
  rcases hhour with ⟨a, rfl, hda⟩ | ⟨a, b, rfl, hab⟩
  · rw [digitsVal_one] at hvh
    rcases htail with rfl | rfl <;>
      simp only [List.cons_append, List.nil_append] at hl <;>
      rw [hl] <;>
      unfold timeMatch
    · rw [show dropTrailingNewline [a, ':', m1, m2] = [a, ':', m1, m2] by
        simp [dropTrailingNewline, hm2ne]]
      rw [timeMatchCore, if_pos ⟨rfl, by simp [hda, hmn]⟩, hvh, hvm]
    · rw [show dropTrailingNewline [a, ':', m1, m2, '\n'] = [a, ':', m1, m2] by
        simp [dropTrailingNewline]]
      rw [timeMatchCore, if_pos ⟨rfl, by simp [hda, hmn]⟩, hvh, hvm]
  · rw [digitsVal_two] at hvh
    have hhr : hourOk2 a b = true := by
      rw [hourOk2_iff]
      rcases hab with ⟨ha, hb⟩ | ⟨ha, hbl, hbu⟩
      · refine Or.inl ⟨?_, hb⟩
        rcases ha with rfl | rfl
        · exact Or.inl h48
        · exact Or.inr h49
      · subst ha
        rw [char_le_iff, h48] at hbl
        rw [char_le_iff, h51] at hbu
        exact Or.inr ⟨h50, hbl, hbu⟩
    rcases htail with rfl | rfl <;>
      simp only [List.cons_append, List.nil_append] at hl <;>
      rw [hl] <;>
      unfold timeMatch
    · rw [show dropTrailingNewline [a, b, ':', m1, m2] = [a, b, ':', m1, m2] by
        simp [dropTrailingNewline, hm2ne]]
      rw [timeMatchCore, if_pos ⟨rfl, by simp [hhr, hmn]⟩, hvh, hvm]
    · rw [show dropTrailingNewline [a, b, ':', m1, m2, '\n'] =
          [a, b, ':', m1, m2] by simp [dropTrailingNewline]]
      rw [timeMatchCore, if_pos ⟨rfl, by simp [hhr, hmn]⟩, hvh, hvm]

/-- C5 counterexample: the original claim — parse fails on EVERY string not
conforming to plain HH:MM — is false of the program.  re.match lets the
anchored dollar match before a string-final newline, and \d with int() are
Unicode-aware, so parse accepts the non-conforming strings "13:30\n" (an
extra character) and "9:3٣" (a non-ASCII digit, parsed as 9:33). -/
theorem parse_time_accepts_nonconforming :
    parse_time "13:30\n" = some (27 / 2 : ℚ) ∧ ¬ specConforms "13:30\n" ∧
      parse_time "9:3٣" = some ((9 : ℚ) + (33 : ℚ) / 60) ∧
      ¬ specConforms "9:3٣" := by
  refine ⟨by with_unfolding_all decide, ?_, by with_unfolding_all decide, ?_⟩
  · rintro ⟨h, m, hh, mm, heq, hlen, -, hmmlen, -⟩
    have hlength := congrArg List.length heq
    rw [show ("13:30\n".toList).length = 6 from rfl] at hlength
    simp [hmmlen] at hlength
    rcases hlen with h1 | h2 <;> omega
  · rintro ⟨h, m, hh, mm, heq, hlen, -, hmmlen, hdm, -⟩
    have hlength := congrArg List.length heq
    rw [show ("9:3٣".toList).length = 4 from rfl] at hlength
    simp [hmmlen] at hlength
    have hhh : hh.length = 1 := by rcases hlen with h1 | h2 <;> omega
    obtain ⟨a, rfl⟩ := List.length_eq_one.mp hhh
    obtain ⟨c, d, rfl⟩ := List.length_eq_two.mp hmmlen
    rw [show "9:3٣".toList = ['9', ':', '3', '٣'] from rfl] at heq
    simp only [List.cons_append, List.nil_append, List.cons.injEq,
      eq_self_iff_true, true_and, and_true] at heq
    obtain ⟨ha, hc, hd⟩ := heq
    subst ha
    subst hc
    subst hd
    exact absurd hdm (by decide)

/-- C5 (amended): parse fails (None, modelling the raised FormatError)
exactly for the strings that are not accepted under Python regex semantics:
HH:MM with hour 0-23 (one or two digits) and minute 00-59 (two digits),
where the \d positions admit any Unicode decimal digit, the literal classes
are ASCII, and a single trailing newline is tolerated.  parse_time is a pure
function of its argument, so failure has no side effects. -/
theorem parse_time_none_iff_not_py_conforming (s : String) :
    parse_time s = none ↔ ¬ ∃ h m, pyTime s h m := by
  constructor
  · intro hn hc
    obtain ⟨h, m, hsp⟩ := hc
    have ht := py_timeMatch_some hsp
    unfold parse_time at hn
    rw [ht] at hn
    exact Option.noConfusion hn
  · intro hns
    unfold parse_time
    rcases hm : timeMatch s.toList with _ | ⟨h, m⟩
    · rfl
    · exact absurd ⟨h, m, timeMatch_some_py hm⟩ hns

/-- C5 witness: "24:00" is rejected by parse, hence not accepted even under
the amended (Python-semantics) conformance. -/
theorem parse_time_none_iff_not_py_conforming_witness :
    ¬ ∃ h m, pyTime "24:00" h m :=
  (parse_time_none_iff_not_py_conforming "24:00").mp
    (by with_unfolding_all decide)

/-- C6: on every conforming string with hour H and minute M, parse returns
H + M/60; in particular parse "13:30" = 13.5 and parse "00:00" = 0. -/
theorem parse_time_conforming_value :
    (∀ s h m, specTime s h m → parse_time s = some ((h : ℚ) + (m : ℚ) / 60)) ∧
      parse_time "13:30" = some (27 / 2 : ℚ) ∧
      parse_time "00:00" = some (0 : ℚ) := by
  refine ⟨?_, ?_, ?_⟩
  · intro s h m hsp
    unfold parse_time
    rw [specTime_timeMatch hsp]
  · with_unfolding_all decide
  · with_unfolding_all decide

/-- C6 witness: the universal part applied at the concrete input "9:05". -/
theorem parse_time_conforming_value_witness :
    parse_time "9:05" = some ((9 : ℚ) + (5 : ℚ) / 60) :=
  parse_time_conforming_value.1 "9:05" 9 5
    ⟨['9'], ['0', '5'], by decide, by decide, by decide, by decide, by decide,
      by decide, by decide, by decide, by decide⟩

/-- C7: the round-trip claim FAILS on the code as written.  "01:01" is a
canonical zero-padded conforming string, but under actual IEEE double
semantics the code formats parse("01:01") as "01:00": the minute computation
int((value - hour) * 60) truncates 59.999999999999996.../60 to 0.  The
formatting the spec prescribes (round, then truncate) does round-trip on the
same value, and so does the code formula under exact rational arithmetic —
the truncation of the rounding error is the bug. -/
theorem format_parse_roundtrip_bug :
    (parse_time_float "01:01").map format_time_float = some "01:00" ∧
      (parse_time_float "01:01").map format_time_float_round = some "01:01" ∧
      (parse_time "01:01").map format_time = some "01:01" ∧
      specTime "01:01" 1 1 := by
  refine ⟨?_, ?_, ?_,
    ⟨['0', '1'], ['0', '1'], by decide, by decide, by decide, by decide,
      by decide, by decide, by decide, by decide, by decide⟩⟩
  · with_unfolding_all decide
  · with_unfolding_all decide
  · with_unfolding_all decide

/-- A parsed value decomposes as h + m/60 with h, m in range, and lies in
[0, 24). -/
theorem parse_time_bounds {s : String} {v : ℚ} (hp : parse_time s = some v) :
    ∃ h m : ℕ, h ≤ 23 ∧ m ≤ 59 ∧ v = (h : ℚ) + (m : ℚ) / 60 ∧
      0 ≤ v ∧ v < 24 := by
  unfold parse_time at hp
  rcases hm : timeMatch s.toList with _ | p
  · rw [hm] at hp; exact Option.noConfusion hp
  · rw [hm] at hp
    injection hp with hp
    unfold timeMatch at hm
    obtain ⟨hhle, hmle⟩ := timeMatchCore_bounds (l := dropTrailingNewline
      s.toList) (by rw [hm])
    refine ⟨p.1, p.2, hhle, hmle, hp.symm, ?_, ?_⟩
    · rw [← hp]
      positivity
    · rw [← hp]
      have h1 : (p.1 : ℚ) ≤ 23 := by exact_mod_cast hhle
      have h2 : (p.2 : ℚ) ≤ 59 := by exact_mod_cast hmle
      have h3 : (p.2 : ℚ) / 60 < 1 := by
        rw [div_lt_one (by norm_num : (0:ℚ) < 60)]
        linarith
      linarith

/-- The conflict scan is the first-match search over the stored list (in
insertion order) for a shared day plus interval overlap. -/
theorem findConflict_eq_find? (days : List Day) (st en : ℚ)
    (l : List ClassEntry) :
    findConflict days st en l =
      l.find? (fun ex => !(sharedDaysOf days ex).isEmpty &&
        times_overlap st en ex.start ex.endTime) := by
  induction l with
  | nil => rfl
  | cons ex rest ih =>
    rw [findConflict, List.find?]
    split
    case isTrue hg => rw [hg]
    case isFalse hg =>
      rw [Bool.not_eq_true] at hg
      rw [hg]
      exact ih

/-- When all validations pass, add_class reduces to the conflict scan. -/
theorem add_class_valid_eq (classes : List ClassEntry)
    (nameText startText endText : String) (sel : Day → Bool) (st en : ℚ)
    (hname : nameText.trim ≠ "")
    (hs : parse_time startText.trim = some st)
    (he : parse_time endText.trim = some en)
    (hlt : st < en) (hdays : DAYS.filter sel ≠ []) :
    add_class classes nameText startText endText sel =
      match findConflict (DAYS.filter sel) st en classes with
      | some ex =>
          (classes, some (.conflict ex.name (sharedDaysOf (DAYS.filter sel) ex)))
      | none =>
          (classes ++ [⟨nameText.trim, st, en, DAYS.filter sel⟩], none) := by
  have hnle : ¬ en ≤ st := not_le.mpr hlt
  unfold add_class
  rw [if_neg hname, hs, he]
  simp only [if_neg hnle, if_neg hdays]

/-- C4: add_class is atomic — on every failing call (any of the five error
outcomes) the stored entry list is returned unchanged. -/
theorem add_class_atomic (classes : List ClassEntry)
    (nameText startText endText : String) (sel : Day → Bool) (err : AddError)
    (hf : (add_class classes nameText startText endText sel).2 = some err) :
    (add_class classes nameText startText endText sel).1 = classes := by
  by_cases h1 : nameText.trim = ""
  · simp [add_class, h1]
  rcases hs : parse_time startText.trim with _ | st
  · simp [add_class, h1, hs]
  rcases he : parse_time endText.trim with _ | en
  · simp [add_class, h1, hs, he]
  by_cases h2 : en ≤ st
  · simp [add_class, h1, hs, he, h2]
  by_cases h3 : DAYS.filter sel = []
  · simp [add_class, h1, hs, he, h2, h3]
  rcases hc : findConflict (DAYS.filter sel) st en classes with _ | ex
  · exfalso
    have hnone : (add_class classes nameText startText endText sel).2 = none := by
      rw [add_class_valid_eq classes nameText startText endText sel st en h1 hs
        he (not_le.mp h2) h3, hc]
    rw [hf] at hnone
    exact Option.noConfusion hnone
  · rw [add_class_valid_eq classes nameText startText endText sel st en h1 hs
      he (not_le.mp h2) h3, hc]

/-- C4 witness: an empty name is rejected and the state survives intact. -/
theorem add_class_atomic_witness :
    (add_class [⟨"Math", 9, 10, [Day.mon]⟩] "" "09:00" "10:00"
        (fun _ => false)).1 = [⟨"Math", 9, 10, [Day.mon]⟩] :=
  add_class_atomic [⟨"Math", 9, 10, [Day.mon]⟩] "" "09:00" "10:00"
    (fun _ => false) .emptyName (by with_unfolding_all decide)

/-- C2: for a candidate that passes name, time-format, start-before-end and
non-empty-days validation, add_class reports a conflict iff some stored
entry shares at least one day and its half-open interval overlaps the
candidate (so touching endpoints never conflict, and identical times on
disjoint days never conflict); when it does, the reported entry is the first
match in insertion order (List.find?), carrying the shared days. -/
theorem add_class_conflict_iff (classes : List ClassEntry)
    (nameText startText endText : String) (sel : Day → Bool) (st en : ℚ)
    (hname : nameText.trim ≠ "")
    (hs : parse_time startText.trim = some st)
    (he : parse_time endText.trim = some en)
    (hlt : st < en) (hdays : DAYS.filter sel ≠ []) :
    ((∃ n sd, (add_class classes nameText startText endText sel).2 =
        some (.conflict n sd)) ↔
      ∃ E ∈ classes, sharedDaysOf (DAYS.filter sel) E ≠ [] ∧
        times_overlap st en E.start E.endTime = true) ∧
    (∀ E, classes.find?
        (fun ex => !(sharedDaysOf (DAYS.filter sel) ex).isEmpty &&
          times_overlap st en ex.start ex.endTime) = some E →
      (add_class classes nameText startText endText sel).2 =
        some (.conflict E.name (sharedDaysOf (DAYS.filter sel) E))) ∧
    (∀ E : ClassEntry,
      (sharedDaysOf (DAYS.filter sel) E ≠ [] ↔
        ∃ d, d ∈ DAYS.filter sel ∧ d ∈ E.days) ∧
      (times_overlap st en E.start E.endTime = true ↔
        st < E.endTime ∧ E.start < en)) := by
  have hred := add_class_valid_eq classes nameText startText endText sel st en
    hname hs he hlt hdays
  have hfc := findConflict_eq_find? (DAYS.filter sel) st en classes
  refine ⟨?_, ?_, ?_⟩
  · rw [hred, hfc]
    rcases hf : classes.find?
        (fun ex => !(sharedDaysOf (DAYS.filter sel) ex).isEmpty &&
          times_overlap st en ex.start ex.endTime) with _ | E
    · simp only [hf]
      constructor
      · rintro ⟨n, sd, hcontr⟩
        exact Option.noConfusion hcontr
      · rintro ⟨E, hmem, hsh, hov⟩
        have : ∃ x, x ∈ classes ∧
            (!(sharedDaysOf (DAYS.filter sel) x).isEmpty &&
              times_overlap st en x.start x.endTime) = true := by
          refine ⟨E, hmem, ?_⟩
          rw [Bool.and_eq_true, Bool.not_eq_true', List.isEmpty_eq_false]
          exact ⟨by simpa using hsh, hov⟩
        rw [← List.find?_isSome] at this
        rw [hf] at this
        exact Bool.noConfusion this
    · simp only [hf]
      constructor
      · intro
        have hp := List.find?_some hf
        have hmem := List.mem_of_find?_eq_some hf
        rw [Bool.and_eq_true, Bool.not_eq_true', List.isEmpty_eq_false] at hp
        exact ⟨E, hmem, by simpa using hp.1, hp.2⟩
      · intro
        exact ⟨E.name, sharedDaysOf (DAYS.filter sel) E, rfl⟩
  · intro E hf
    rw [hred, hfc, hf]
  · intro E
    constructor
    · unfold sharedDaysOf
      constructor
      · intro hne
        obtain ⟨d, hd⟩ := List.exists_mem_of_ne_nil _ hne
        rw [List.mem_filter] at hd
        exact ⟨d, hd.1, by simpa using hd.2⟩
      · rintro ⟨d, hmem, hin⟩ hcontr
        have : d ∈ List.filter (fun d => decide (d ∈ E.days)) (DAYS.filter sel) := by
          rw [List.mem_filter]
          exact ⟨hmem, by simpa using hin⟩
        rw [hcontr] at this
        exact List.not_mem_nil d this
    · unfold times_overlap
      rw [Bool.not_eq_true', Bool.or_eq_false_iff]
      simp only [decide_eq_false_iff_not, not_le]
      constructor
      · rintro ⟨h1, h2⟩; exact ⟨h2, h1⟩
      · rintro ⟨h1, h2⟩; exact ⟨h2, h1⟩

/-- C2 witness: Math on Mon/Wed/Fri 09:00-10:00 stored; adding Physics on
Mon 09:30-10:30 is rejected naming Math with shared day Mon. -/
theorem add_class_conflict_iff_witness :
    (add_class [⟨"Math", 9, 10, [Day.mon, Day.wed, Day.fri]⟩]
        "Physics" "09:30" "10:30" (fun d => decide (d = Day.mon))).2 =
      some (.conflict "Math" [Day.mon]) := by
  have h := (add_class_conflict_iff
      [⟨"Math", 9, 10, [Day.mon, Day.wed, Day.fri]⟩]
      "Physics" "09:30" "10:30" (fun d => decide (d = Day.mon))
      ((9 : ℚ) + (30 : ℚ) / 60) ((10 : ℚ) + (30 : ℚ) / 60)
      (by with_unfolding_all decide) (by with_unfolding_all decide)
      (by with_unfolding_all decide)
      (by with_unfolding_all decide) (by decide)).2.1
      ⟨"Math", 9, 10, [Day.mon, Day.wed, Day.fri]⟩
      (by with_unfolding_all decide)
  rw [h]
  with_unfolding_all decide

/-- The stored-entry invariant of the spec: non-empty name, start strictly
before end, non-empty day set drawn from the seven fixed weekdays, and both
times derived from a valid HH:MM string, hence of the form h + m/60 and
within [0, 24). -/
def entryInv (e : ClassEntry) : Prop :=
  e.name ≠ "" ∧ e.start < e.endTime ∧ e.days ≠ [] ∧ (∀ d ∈ e.days, d ∈ DAYS) ∧
    (∃ h m : ℕ, h ≤ 23 ∧ m ≤ 59 ∧ e.start = (h : ℚ) + (m : ℚ) / 60) ∧
    (∃ h m : ℕ, h ≤ 23 ∧ m ≤ 59 ∧ e.endTime = (h : ℚ) + (m : ℚ) / 60) ∧
    0 ≤ e.start ∧ e.start < 24 ∧ 0 ≤ e.endTime ∧ e.endTime < 24

/-- C9: every entry stored after an add_class call satisfies the invariant,
provided every entry before the call did: error paths return the list
unchanged, and an appended entry was built from a non-empty trimmed name,
two successfully parsed times with start < end, and a non-empty selection
from the fixed day list.  (select_classes does not change the stored list at
all; see the frame theorem.) -/
theorem add_class_preserves_inv (classes : List ClassEntry)
    (nameText startText endText : String) (sel : Day → Bool)
    (hinv : ∀ e ∈ classes, entryInv e) :
    ∀ e ∈ (add_class classes nameText startText endText sel).1, entryInv e := by
  by_cases h1 : nameText.trim = ""
  · simp only [add_class, if_pos h1]; exact hinv
  rcases hs : parse_time startText.trim with _ | st
  · simp [add_class, h1, hs]; exact hinv
  rcases he : parse_time endText.trim with _ | en
  · simp [add_class, h1, hs, he]; exact hinv
  by_cases h2 : en ≤ st
  · simp [add_class, h1, hs, he, h2]; exact hinv
  by_cases h3 : DAYS.filter sel = []
  · simp [add_class, h1, hs, he, h2, h3]; exact hinv
  rcases hc : findConflict (DAYS.filter sel) st en classes with _ | ex
  · rw [add_class_valid_eq classes nameText startText endText sel st en h1 hs
      he (not_le.mp h2) h3, hc]
    intro e hmem
    rcases List.mem_append.mp hmem with hold | hnew
    · exact hinv e hold
    · rcases List.mem_singleton.mp hnew with rfl
      obtain ⟨hh1, hm1, hhle1, hmle1, hv1, hnn1, hlt1⟩ := parse_time_bounds hs
      obtain ⟨hh2, hm2, hhle2, hmle2, hv2, hnn2, hlt2⟩ := parse_time_bounds he
      refine ⟨h1, not_le.mp h2, h3, ?_, ⟨hh1, hm1, hhle1, hmle1, hv1⟩,
        ⟨hh2, hm2, hhle2, hmle2, hv2⟩, hnn1, hlt1, hnn2, hlt2⟩
      intro d hd
      exact List.mem_of_mem_filter hd
  · rw [add_class_valid_eq classes nameText startText endText sel st en h1 hs
      he (not_le.mp h2) h3, hc]
    exact hinv

/-- C9 witness: starting from the empty engine, a valid add leaves a state
whose single entry satisfies the invariant. -/
theorem add_class_preserves_inv_witness :
    entryInv ⟨"Math", 9, 10, [Day.mon]⟩ :=
  add_class_preserves_inv [] "Math" "09:00" "10:00"
      (fun d => decide (d = Day.mon)) (by simp)
    ⟨"Math", 9, 10, [Day.mon]⟩ (by with_unfolding_all decide)

/-- The pairs the inner loop produces for one day from an empty selected
list (the per-day contribution of select_classes). -/
def dayPairs (d : Day) (classes : List ClassEntry) : List (Day × ClassEntry) :=
  ((sortByEnd (filterDay d classes)).foldl (greedyStep d) ([], -1)).1

/-- The inner greedy fold appends to the incoming selected list exactly the
day-tagged entries of the spec-side greedy scan. -/
theorem greedyFold_eq_scan (d : Day) (l : List ClassEntry) :
    ∀ (s : List (Day × ClassEntry)) (t : ℚ), ∃ t' : ℚ,
      l.foldl (greedyStep d) (s, t) =
        (s ++ (specGreedyScan t l).map (fun c => (d, c)), t') := by
  induction l with
  | nil => intro s t; exact ⟨t, by simp [specGreedyScan]⟩
  | cons c rest ih =>
    intro s t
    rw [List.foldl_cons]
    by_cases hacc : t ≤ c.start
    · obtain ⟨t', ht'⟩ := ih (s ++ [(d, c)]) c.endTime
      refine ⟨t', ?_⟩
      rw [greedyStep, if_pos hacc] at *
      rw [ht', specGreedyScan, if_pos hacc]
      simp
    · obtain ⟨t', ht'⟩ := ih s t
      refine ⟨t', ?_⟩
      rw [greedyStep, if_neg hacc] at *
      rw [ht', specGreedyScan, if_neg hacc]

/-- The per-day contribution equals the spec-side greedy scan over the
stable-sorted day filter, tagged with the day. -/
theorem dayPairs_eq_scan (d : Day) (classes : List ClassEntry) :
    dayPairs d classes =
      (specGreedyScan (-1) (sortByEnd (filterDay d classes))).map
        (fun c => (d, c)) := by
  obtain ⟨t', ht'⟩ := greedyFold_eq_scan d (sortByEnd (filterDay d classes)) [] (-1)
  unfold dayPairs
  rw [ht']
  simp

/-- C10: select_classes never changes the stored entry list: the state
component threaded through the per-day loop is returned exactly as it was
passed in, because each iteration sorts a freshly built filtered list and
writes only the local selected accumulator. -/
theorem selectLoop_preserves_state (classes : List ClassEntry) :
    (selectLoop classes).1 = classes := by
  unfold selectLoop
  have hgen : ∀ (ds : List Day) (acc : List ClassEntry × List (Day × ClassEntry)),
      (ds.foldl dayStep acc).1 = acc.1 := by
    intro ds
    induction ds with
    | nil => intro acc; rfl
    | cons d rest ih =>
      intro acc
      rw [List.foldl_cons, ih]
      rfl
  exact hgen DAYS (classes, [])

/-- Decomposition: the pre-sort selected list is the concatenation, in DAYS
order, of the per-day contributions computed on the unchanged entry list. -/
theorem selectLoop_snd (classes : List ClassEntry) :
    (selectLoop classes).2 = (DAYS.map (fun d => dayPairs d classes)).flatten := by
  unfold selectLoop
  have hgen : ∀ (ds : List Day) (s : List (Day × ClassEntry)),
      (ds.foldl dayStep (classes, s)).2 =
        s ++ (ds.map (fun d => dayPairs d classes)).flatten := by
    intro ds
    induction ds with
    | nil => intro s; simp
    | cons d rest ih =>
      intro s
      rw [List.foldl_cons]
      have hstep : dayStep (classes, s) d = (classes, s ++ dayPairs d classes) := by
        unfold dayStep dayPairs
        obtain ⟨t', ht'⟩ :=
          greedyFold_eq_scan d (sortByEnd (filterDay d classes)) s (-1)
        obtain ⟨t'', ht''⟩ :=
          greedyFold_eq_scan d (sortByEnd (filterDay d classes)) [] (-1)
        simp only [ht', ht'']
        simp
      rw [hstep, ih]
      simp
  exact hgen DAYS []

/-- The comparison used by sortByEnd is transitive. -/
theorem endLe_trans : ∀ a b c : ClassEntry,
    decide (a.endTime ≤ b.endTime) = true →
    decide (b.endTime ≤ c.endTime) = true →
    decide (a.endTime ≤ c.endTime) = true := by
  intro a b c h1 h2
  rw [decide_eq_true_eq] at *
  exact le_trans h1 h2

/-- The comparison used by sortByEnd is total. -/
theorem endLe_total : ∀ a b : ClassEntry,
    (decide (a.endTime ≤ b.endTime) || decide (b.endTime ≤ a.endTime)) = true := by
  intro a b
  rcases le_total a.endTime b.endTime with h | h <;> simp [h]

/-- sortByEnd permutes its input. -/
theorem sortByEnd_perm (l : List ClassEntry) : (sortByEnd l).Perm l :=
  List.mergeSort_perm l _

/-- sortByEnd sorts by end time (non-decreasing). -/
theorem sortByEnd_sorted (l : List ClassEntry) :
    (sortByEnd l).Pairwise (fun a b => a.endTime ≤ b.endTime) := by
  have h := List.sorted_mergeSort endLe_trans endLe_total l
  exact h.imp (fun hab => by rwa [decide_eq_true_eq] at hab)

/-- sortByEnd is stable: any two elements in end-time order (in particular,
ties) that appear as a subpair of the input stay a subpair of the output. -/
theorem sortByEnd_stable (l : List ClassEntry) (a b : ClassEntry)
    (hab : [a, b].Sublist l) (hle : a.endTime ≤ b.endTime) :
    [a, b].Sublist (sortByEnd l) := by
  refine List.sublist_mergeSort endLe_trans endLe_total ?_ hab
  exact List.pairwise_cons.mpr ⟨by simpa using hle, by simp⟩

/-- keyLe spelled out: strictly smaller day index, or same day index and
start no later. -/
theorem keyLe_iff (p q : Day × ClassEntry) :
    keyLe p q = true ↔
      dayIdx p.1 < dayIdx q.1 ∨
        (dayIdx p.1 = dayIdx q.1 ∧ p.2.start ≤ q.2.start) := by
  simp [keyLe]

/-- The final sort comparison is transitive. -/
theorem keyLe_trans : ∀ p q r : Day × ClassEntry,
    keyLe p q = true → keyLe q r = true → keyLe p r = true := by
  intro p q r h1 h2
  rw [keyLe_iff] at *
  rcases h1 with h1 | ⟨h1e, h1s⟩ <;> rcases h2 with h2 | ⟨h2e, h2s⟩
  · exact Or.inl (lt_trans h1 h2)
  · exact Or.inl (h2e ▸ h1)
  · exact Or.inl (h1e ▸ h2)
  · exact Or.inr ⟨h1e.trans h2e, le_trans h1s h2s⟩

/-- The final sort comparison is total. -/
theorem keyLe_total : ∀ p q : Day × ClassEntry,
    (keyLe p q || keyLe q p) = true := by
  intro p q
  rw [Bool.or_eq_true, keyLe_iff, keyLe_iff]
  rcases Nat.lt_trichotomy (dayIdx p.1) (dayIdx q.1) with h | h | h
  · exact Or.inl (Or.inl h)
  · rcases le_total p.2.start q.2.start with hs | hs
    · exact Or.inl (Or.inr ⟨h, hs⟩)
    · exact Or.inr (Or.inr ⟨h.symm, hs⟩)
  · exact Or.inr (Or.inl h)

/-- C8: the sequence select_classes returns is sorted by (day index in
Mon..Sun order, start time): consecutive-pair-wise, every later element has
a strictly larger day index or the same day index and a start no earlier —
so the output is grouped by weekday in fixed order with entries
start-ascending within each day. -/
theorem select_classes_sorted_by_day_start (classes : List ClassEntry) :
    (select_classes classes).Pairwise (fun p q =>
      dayIdx p.1 < dayIdx q.1 ∨
        (dayIdx p.1 = dayIdx q.1 ∧ p.2.start ≤ q.2.start)) := by
  have h := List.sorted_mergeSort keyLe_trans keyLe_total ((selectLoop classes).2)
  exact h.imp (fun hab => (keyLe_iff _ _).mp hab)

/-- The three-class Monday scenario of the spec: ends 10:00, 10:30, 11:00
and starts 09:00, 09:15, 10:00. -/
def mondayScenario : List ClassEntry :=
  [⟨"class-1", 9, 10, [Day.mon]⟩,
   ⟨"class-2", 9 + (15 : ℚ) / 60, 10 + (30 : ℚ) / 60, [Day.mon]⟩,
   ⟨"class-3", 10, 11, [Day.mon]⟩]

/-- C3: per day, select_classes filters the stored entries to the day,
stable-sorts them by end time, and greedily accepts a candidate exactly when
its start is at least lastEnd (sentinel -1, updated to each accepted end):
the per-day contribution equals the spec-side recursive greedy scan over the
sorted day filter, the pre-sort output is the concatenation of the per-day
contributions in Mon..Sun order, the sort is a permutation sorted by end
time that keeps any end-ordered input pair (in particular equal-end ties) in
insertion order, and on the three-class Monday scenario the selection is
[class-1, class-3]. -/
theorem select_day_algorithm :
    (∀ d classes, dayPairs d classes =
        (specGreedyScan (-1) (sortByEnd (filterDay d classes))).map
          (fun c => (d, c))) ∧
    (∀ classes, (selectLoop classes).2 =
        (DAYS.map (fun d => dayPairs d classes)).flatten) ∧
    (∀ l : List ClassEntry, (sortByEnd l).Perm l) ∧
    (∀ l : List ClassEntry,
      (sortByEnd l).Pairwise (fun a b => a.endTime ≤ b.endTime)) ∧
    (∀ (l : List ClassEntry) (a b : ClassEntry), [a, b].Sublist l →
      a.endTime ≤ b.endTime → [a, b].Sublist (sortByEnd l)) ∧
    select_classes mondayScenario =
      [(Day.mon, ⟨"class-1", 9, 10, [Day.mon]⟩),
       (Day.mon, ⟨"class-3", 10, 11, [Day.mon]⟩)] :=
  ⟨dayPairs_eq_scan, selectLoop_snd, sortByEnd_perm, sortByEnd_sorted,
    sortByEnd_stable, by with_unfolding_all decide⟩

/-- C3 witness: the stability part applied to a concrete equal-end pair. -/
theorem select_day_algorithm_witness :
    [(⟨"A", 1, 5, [Day.mon]⟩ : ClassEntry), ⟨"B", 2, 5, [Day.mon]⟩].Sublist
      (sortByEnd [⟨"A", 1, 5, [Day.mon]⟩, ⟨"B", 2, 5, [Day.mon]⟩]) :=
  select_day_algorithm.2.2.2.2.1
    [⟨"A", 1, 5, [Day.mon]⟩, ⟨"B", 2, 5, [Day.mon]⟩]
    ⟨"A", 1, 5, [Day.mon]⟩ ⟨"B", 2, 5, [Day.mon]⟩
    (List.Sublist.refl _) (le_refl _)

/-- The entries a selection result pairs with a given weekday. -/
def entriesFor (d : Day) (res : List (Day × ClassEntry)) : List ClassEntry :=
  res.filterMap (fun p => if p.1 = d then some p.2 else none)

/-- compat is exactly times_overlap returning false. -/
theorem compat_iff_overlap_false (a b : ClassEntry) :
    compat a b ↔
      times_overlap a.start a.endTime b.start b.endTime = false := by
  unfold compat times_overlap
  simp
  rw [or_iff_not_imp_left, not_le]

/-- compat is symmetric. -/
theorem compat_symm {a b : ClassEntry} (h : compat a b) : compat b a :=
  h.elim Or.inr Or.inl

/-- The greedy scan picks a subsequence of its input. -/
theorem scan_sublist (t : ℚ) (l : List ClassEntry) :
    (specGreedyScan t l).Sublist l := by
  induction l generalizing t with
  | nil => simp [specGreedyScan]
  | cons c rest ih =>
    rw [specGreedyScan]
    split
    · exact List.cons_sublist_cons.mpr (ih _)
    · exact (ih t).trans (List.sublist_cons_self c rest)

/-- Every entry the greedy scan accepts starts no earlier than the incoming
lastEnd, provided every candidate has start < end. -/
theorem scan_start_ge (l : List ClassEntry)
    (hwf : ∀ x ∈ l, x.start < x.endTime) :
    ∀ (t : ℚ), ∀ x ∈ specGreedyScan t l, t ≤ x.start := by
  induction l with
  | nil => intro t x hx; simp [specGreedyScan] at hx
  | cons c rest ih =>
    intro t x hx
    rw [specGreedyScan] at hx
    split at hx
    case isTrue hacc =>
      rcases List.mem_cons.mp hx with rfl | hx
      · exact hacc
      · have hc := hwf c (List.mem_cons_self c rest)
        have := ih (fun y hy => hwf y (List.mem_cons_of_mem c hy)) c.endTime x hx
        linarith
    case isFalse hacc =>
      exact ih (fun y hy => hwf y (List.mem_cons_of_mem c hy)) t x hx

/-- The greedy scan output is pairwise compatible when the input is sorted
by end time and well-formed. -/
theorem scan_pairwise (l : List ClassEntry)
    (hsort : l.Pairwise (fun a b => a.endTime ≤ b.endTime))
    (hwf : ∀ x ∈ l, x.start < x.endTime) :
    ∀ t : ℚ, (specGreedyScan t l).Pairwise compat := by
  induction l with
  | nil => intro t; simp [specGreedyScan]
  | cons c rest ih =>
    intro t
    have hsort' := (List.pairwise_cons.mp hsort).2
    have hwf' : ∀ x ∈ rest, x.start < x.endTime :=
      fun y hy => hwf y (List.mem_cons_of_mem c hy)
    rw [specGreedyScan]
    split
    case isTrue hacc =>
      refine List.pairwise_cons.mpr ⟨?_, ih hsort' hwf' c.endTime⟩
      intro x hx
      exact Or.inl (scan_start_ge rest hwf' c.endTime x hx)
    case isFalse hacc => exact ih hsort' hwf' t

/-- Greedy optimality: over a list sorted by end time whose entries all have
start < end, every pairwise-compatible subsequence whose entries all start
at or after the incoming lastEnd is no longer than the greedy selection. -/
theorem scan_maximal (l : List ClassEntry)
    (hsort : l.Pairwise (fun a b => a.endTime ≤ b.endTime))
    (hwf : ∀ x ∈ l, x.start < x.endTime) :
    ∀ (t : ℚ) (S : List ClassEntry), S.Sublist l → S.Pairwise compat →
      (∀ x ∈ S, t ≤ x.start) → S.length ≤ (specGreedyScan t l).length := by
  induction l with
  | nil =>
    intro t S hS _ _
    rw [List.sublist_nil.mp hS]
    exact Nat.le_refl 0
  | cons c rest ih =>
    intro t S hS hP hge
    have hsort' := (List.pairwise_cons.mp hsort).2
    have hheadle := (List.pairwise_cons.mp hsort).1
    have hwf' : ∀ x ∈ rest, x.start < x.endTime :=
      fun y hy => hwf y (List.mem_cons_of_mem c hy)
    rw [specGreedyScan]
    split
    case isTrue hacc =>
      cases hS with
      | cons _ hS' =>
        cases S with
        | nil => simp
        | cons s₁ S'' =>
          have hs₁mem : s₁ ∈ rest :=
            List.Sublist.mem (List.mem_cons_self s₁ S'') hS'
          have hS''sub : S''.Sublist rest :=
            (List.sublist_cons_self s₁ S'').trans hS'
          have hS''start : ∀ x ∈ S'', c.endTime ≤ x.start := by
            intro x hx
            have hcompat := (List.pairwise_cons.mp hP).1 x hx
            have hs₁le : s₁.endTime ≤ x.endTime := by
              have hpair : (s₁ :: S'').Pairwise
                  (fun a b => a.endTime ≤ b.endTime) :=
                List.Pairwise.sublist hS' hsort'
              exact (List.pairwise_cons.mp hpair).1 x hx
            have hcle : c.endTime ≤ s₁.endTime := hheadle s₁ hs₁mem
            rcases hcompat with h | h
            · linarith
            · have hxwf := hwf' x (hS''sub.mem hx)
              have hs₁wf := hwf' s₁ hs₁mem
              linarith
          have := ih hsort' hwf' c.endTime S'' hS''sub
            (List.pairwise_cons.mp hP).2 hS''start
          simpa using Nat.succ_le_succ this
      | cons₂ _ hS' =>
        rename_i S'
        have hS'start : ∀ x ∈ S', c.endTime ≤ x.start := by
          intro x hx
          have hcompat := (List.pairwise_cons.mp hP).1 x hx
          rcases hcompat with h | h
          · exact h
          · have hxmem : x ∈ rest := hS'.mem hx
            have hxle : c.endTime ≤ x.endTime := hheadle x hxmem
            have hcwf := hwf c (List.mem_cons_self c rest)
            linarith
        have := ih hsort' hwf' c.endTime S' hS'
          (List.pairwise_cons.mp hP).2 hS'start
        simpa using Nat.succ_le_succ this
    case isFalse hacc =>
      cases hS with
      | cons _ hS' =>
        exact ih hsort' hwf' t S hS' hP hge
      | cons₂ _ hS' =>
        exact absurd (hge c (List.mem_cons_self c _)) hacc

/-- Projecting one day out of a day-tagged list: everything if the tag is
the day, nothing otherwise. -/
theorem entriesFor_map_tag (d d' : Day) (l : List ClassEntry) :
    entriesFor d (l.map (fun c => (d', c))) = if d' = d then l else [] := by
  unfold entriesFor
  rw [List.filterMap_map]
  by_cases h : d' = d
  · subst h
    simp [Function.comp_def]
  · simp [Function.comp_def, h]

/-- Flattening the per-day lists and keeping one day yields that day's
list (each weekday occurs exactly once in DAYS). -/
theorem flatten_single_day (d : Day) (g : Day → List ClassEntry) :
    ((DAYS.map fun d' => if d' = d then g d' else []).flatten) = g d := by
  cases d <;> simp [DAYS]

/-- The entries select_classes pairs with a day are a permutation of the
greedy scan over that day's sorted filter. -/
theorem entriesFor_select_perm (d : Day) (classes : List ClassEntry) :
    (entriesFor d (select_classes classes)).Perm
      (specGreedyScan (-1) (sortByEnd (filterDay d classes))) := by
  have hsortperm : (select_classes classes).Perm ((selectLoop classes).2) :=
    List.mergeSort_perm _ _
  have h1 : (entriesFor d (select_classes classes)).Perm
      (entriesFor d ((selectLoop classes).2)) :=
    List.Perm.filterMap _ hsortperm
  rw [selectLoop_snd] at h1
  have h2 : entriesFor d ((DAYS.map (fun d' => dayPairs d' classes)).flatten) =
      specGreedyScan (-1) (sortByEnd (filterDay d classes)) := by
    unfold entriesFor
    rw [List.filterMap_flatten, List.map_map]
    have h3 : (List.filterMap (fun p => if p.1 = d then some p.2 else none) ∘
        fun d' => dayPairs d' classes) =
        fun d' => if d' = d then
          specGreedyScan (-1) (sortByEnd (filterDay d' classes)) else [] := by
      funext d'
      show entriesFor d (dayPairs d' classes) = _
      rw [dayPairs_eq_scan, entriesFor_map_tag]
    rw [h3]
    exact flatten_single_day d
      (fun d' => specGreedyScan (-1) (sortByEnd (filterDay d' classes)))
  rw [h2] at h1
  exact h1

/-- C1: for every weekday d and every well-formed engine state (each stored
entry has start < end and a non-negative start, as every reachable state
does), the entries select_classes chooses for d are drawn from the stored
entries whose days contain d (as a sub-multiset, preserving multiplicity),
are pairwise non-overlapping in the half-open sense of times_overlap, and
have maximum size: no pairwise non-overlapping sub-multiset of the day's
entries is larger. -/
theorem select_classes_max_day (d : Day) (classes : List ClassEntry)
    (hwf : ∀ e ∈ classes, e.start < e.endTime)
    (hpos : ∀ e ∈ classes, 0 ≤ e.start) :
    (entriesFor d (select_classes classes)).Subperm (filterDay d classes) ∧
    (entriesFor d (select_classes classes)).Pairwise
      (fun a b => times_overlap a.start a.endTime b.start b.endTime = false) ∧
    ∀ alt : List ClassEntry, alt.Subperm (filterDay d classes) →
      alt.Pairwise
        (fun a b => times_overlap a.start a.endTime b.start b.endTime = false) →
      alt.length ≤ (entriesFor d (select_classes classes)).length := by
  have hperm := entriesFor_select_perm d classes
  have hLperm : (sortByEnd (filterDay d classes)).Perm (filterDay d classes) :=
    sortByEnd_perm _
  have hLsort := sortByEnd_sorted (filterDay d classes)
  have hmemcl : ∀ x ∈ sortByEnd (filterDay d classes), x ∈ classes := by
    intro x hx
    have := hLperm.mem_iff.mp hx
    exact List.mem_of_mem_filter this
  have hLwf : ∀ x ∈ sortByEnd (filterDay d classes), x.start < x.endTime :=
    fun x hx => hwf x (hmemcl x hx)
  have hscan_sub := scan_sublist (-1) (sortByEnd (filterDay d classes))
  refine ⟨?_, ?_, ?_⟩
  · exact (hperm.subperm).trans ((hscan_sub.subperm).trans hLperm.subperm)
  · have hp := scan_pairwise (sortByEnd (filterDay d classes)) hLsort hLwf (-1)
    have hp' := hp.imp (fun hab => (compat_iff_overlap_false _ _).mp hab)
    exact hp'.perm hperm.symm
      (fun hxy => (compat_iff_overlap_false _ _).mp
        (compat_symm ((compat_iff_overlap_false _ _).mpr hxy)))
  · intro alt halt hcomp
    have haltL : alt.Subperm (sortByEnd (filterDay d classes)) :=
      halt.trans hLperm.symm.subperm
    obtain ⟨alt₀, hperm₀, hsub₀⟩ := haltL
    have hcomp₀ : alt₀.Pairwise compat :=
      (hcomp.imp (fun hab => (compat_iff_overlap_false _ _).mpr hab)).perm
        hperm₀.symm (fun hxy => compat_symm hxy)
    have hge₀ : ∀ x ∈ alt₀, (-1 : ℚ) ≤ x.start := by
      intro x hx
      have hxc : x ∈ classes := hmemcl x (hsub₀.mem hx)
      have := hpos x hxc
      linarith
    have hmax := scan_maximal (sortByEnd (filterDay d classes)) hLsort hLwf
      (-1) alt₀ hsub₀ hcomp₀ hge₀
    calc alt.length = alt₀.length := hperm₀.length_eq.symm
      _ ≤ (specGreedyScan (-1) (sortByEnd (filterDay d classes))).length := hmax
      _ = (entriesFor d (select_classes classes)).length := hperm.length_eq.symm

/-- C1 witness: on the Monday scenario the hypotheses hold and the chosen
Monday entries are a sub-multiset of the Monday filter. -/
theorem select_classes_max_day_witness :
    (entriesFor Day.mon (select_classes mondayScenario)).Subperm
      (filterDay Day.mon mondayScenario) :=
  (select_classes_max_day Day.mon mondayScenario
    (by with_unfolding_all decide) (by with_unfolding_all decide)).1

end SchedChk
